import Mathlib

set_option maxHeartbeats 1000000

/-!
Shallow embedding of the branch-classification and branch-deletion logic of
`git-env-branches` (src/helper/GitHelper.ts and src/helper/ConsoleHelper.ts).

The external version-control tool is modelled as an environment `GitEnv` whose
fields are the responses the gateway obtains from it: the `--merged` / `--no-merged`
query results, the remote branch list (name and last commit id, in listing order),
the `branchLocal` response, the parsed last-commit info and the files-touched
diff result.  The classification code itself (building the per-branch `target`
object, deriving the flags, collecting orphan local branches) is translated
statement by statement from `GitHelper.ts`; the follow-up grouping, the eligible
set and the deletion partitioning are translated from `ConsoleHelper.ts` and the
deletion region of `GitHelper.ts`.
-/

/-- Result of `git.branchLocal()`: the checked-out branch name (empty string when
none is reported) and the list of all local branch names. -/
structure LocalBranchSummary where
  current : String
  all : List String

deriving instance DecidableEq for LocalBranchSummary

/-- Modelled from the spec: `Constants.ORIGIN`, the remote-name qualifier
(`src/Constants.ts` is not among the provided sources).  The spec consistently
writes remote branch names as `origin/X` and the in-src code line
`currentBranch = origin/...` fixes the same literal. -/
def Constants.ORIGIN : String := "origin/"

/-- `EnvironmentBranchData` from src/types/BranchSummary.ts. -/
structure EnvironmentBranchData where
  merged : List String
  unmerged : List String

deriving instance DecidableEq for EnvironmentBranchData

/-- `FeatureBranchSummary` from src/types/BranchSummary.ts.  The `target` object
is modelled as an association list in JS-object insertion order. -/
structure FeatureBranchSummary where
  branch : String
  committedAt : String
  committedBy : String
  target : List (String × Bool)
  filesTouched : List String
  isCurrent : Bool
  isFullyMerged : Bool
  isNeverMerged : Bool
  isEnvironmentBranch : Bool
  isLocalOnly : Bool
  hasPossibleConflictingFiles : Bool

deriving instance DecidableEq for FeatureBranchSummary

/-- The gateway responses of one run: every git query the classification code
issues is read off this environment. -/
structure GitEnv where
  mergedQ : String → List String
  unmergedQ : String → List String
  remoteBranches : List (String × String)
  branchLocal : LocalBranchSummary
  commitInfo : String → String × String
  filesTouched : String → List String

/-- A merge-state query issued against the version-control tool
(`git branch -r --merged ...` or `git branch -r --no-merged ...`). -/
inductive MergeQuery where
  | mergedInto (name : String)
  | unmergedInto (name : String)

deriving instance DecidableEq for MergeQuery

/-- JS object assignment `m[k] = v`: overwrite the value when the key is present,
append the new entry otherwise (string keys keep first-insertion order). -/
def objInsert {α : Type} (m : List (String × α)) (k : String) (v : α) : List (String × α) :=
  if m.any (fun p => p.1 == k) then
    m.map (fun p => if p.1 == k then (k, v) else p)
  else
    m ++ [(k, v)]

/-- JS object read `m[k]`. -/
def objLookup {α : Type} : List (String × α) → String → Option α
  | [], _ => none
  | p :: m, k => if p.1 == k then some p.2 else objLookup m k

/-- `targets[name]` in GitHelper.ts: the loop over the environment branches has
always populated the key, so the default is never reached on those reads. -/
def lookupEnvData (m : List (String × EnvironmentBranchData)) (k : String) : EnvironmentBranchData :=
  (objLookup m k).getD ⟨[], []⟩

/-- Remove the first occurrence of `pat` from a character list (no-op when `pat`
does not occur). -/
def removeFirstOcc (pat : List Char) : List Char → List Char
  | [] => []
  | c :: cs =>
    if pat.isPrefixOf (c :: cs) then (c :: cs).drop pat.length
    else c :: removeFirstOcc pat cs

/-- JS `s.replace(pat, "")` with a plain-string pattern: removes the first
occurrence of `pat` only. -/
def replaceFirst (s pat : String) : String :=
  String.mk (removeFirstOcc pat.data s.data)

/-- JS `s.startsWith(pat)`, stated on the character lists. -/
def strStartsWith (s pat : String) : Bool :=
  pat.data.isPrefixOf s.data

/-- `getTargetBranchData` (GitHelper.ts lines 226-236): one `--merged` and one
`--no-merged` query for the given environment branch, together with the trace of
the two merge-state queries it issues. -/
def getTargetBranchData (env : GitEnv) (branchName : String) :
    EnvironmentBranchData × List MergeQuery :=
  (⟨env.mergedQ branchName, env.unmergedQ branchName⟩,
   [MergeQuery.mergedInto branchName, MergeQuery.unmergedInto branchName])

/-- The `targets` object built by the loop `for (const name of environmentBranches)
targets[name] = await this.getTargetBranchData(name)` (GitHelper.ts lines 113-115
and 181-183), paired with the merge-state queries issued while building it. -/
def mkTargets (env : GitEnv) (environmentBranches : List String) :
    List (String × EnvironmentBranchData) × List MergeQuery :=
  environmentBranches.foldl
    (fun acc name =>
      (objInsert acc.1 name (getTargetBranchData env name).1,
       acc.2 ++ (getTargetBranchData env name).2))
    ([], [])

/-- Body of the `for (const branch in remoteBranches.branches)` loop of
`getBranchSummaryRemoteBranches` (GitHelper.ts lines 121-155); `b` is the pair
(branch name, last commit id). -/
def classifyRemoteBranch (env : GitEnv) (environmentBranches : List String)
    (targets : List (String × EnvironmentBranchData)) (currentBranch : String)
    (b : String × String) : FeatureBranchSummary :=
  let commit := env.commitInfo b.2
  let target := environmentBranches.foldl
    (fun t name => objInsert t name ((lookupEnvData targets name).merged.contains b.1)) []
  { branch := b.1
    committedAt := commit.1
    committedBy := commit.2
    target := target
    filesTouched := env.filesTouched b.1
    isCurrent := currentBranch == b.1
    isFullyMerged := (target.map Prod.snd).all (fun item => item)
    isNeverMerged := (target.map Prod.snd).all (fun item => !item)
    isEnvironmentBranch :=
      (environmentBranches.map (fun item => Constants.ORIGIN ++ item)).contains b.1
    isLocalOnly := false
    hasPossibleConflictingFiles := false }

/-- `getBranchSummaryRemoteBranches` (GitHelper.ts lines 107-158): records plus
the merge-state queries the pass issues. -/
def getBranchSummaryRemoteBranches (env : GitEnv) (environmentBranches : List String) :
    List FeatureBranchSummary × List MergeQuery :=
  let currentBranch0 := env.branchLocal.current
  let tm := mkTargets env environmentBranches
  let currentBranch := if currentBranch0 ≠ "" then "origin/" ++ currentBranch0 else currentBranch0
  (env.remoteBranches.map (classifyRemoteBranch env environmentBranches tm.1 currentBranch),
   tm.2)

/-- `remoteBranches.all.map(branch => branch.replace(Constants.ORIGIN, ""))`
(GitHelper.ts line 174). -/
def remoteAsLocalBranchNames (env : GitEnv) : List String :=
  env.remoteBranches.map (fun b => replaceFirst b.1 Constants.ORIGIN)

/-- `localBranches.all.filter(localBranch => !remoteAsLocalBranchesSet.has(localBranch))`
(GitHelper.ts line 175). -/
def orphanLocalBranchNames (env : GitEnv) : List String :=
  env.branchLocal.all.filter
    (fun localBranch => !((remoteAsLocalBranchNames env).contains localBranch))

/-- Body of the orphan loop of `getBranchSummaryLocalBranches`
(GitHelper.ts lines 185-215). -/
def classifyOrphanLocalBranch (env : GitEnv) (environmentBranches : List String)
    (branch : String) : FeatureBranchSummary :=
  let target := environmentBranches.foldl (fun t name => objInsert t name false) []
  { branch := branch
    committedAt := ""
    committedBy := ""
    target := target
    filesTouched := env.filesTouched branch
    isCurrent := env.branchLocal.current == branch
    isFullyMerged := false
    isNeverMerged := false
    isEnvironmentBranch := false
    isLocalOnly := true
    hasPossibleConflictingFiles := false }

/-- `getBranchSummaryLocalBranches` (GitHelper.ts lines 172-218): the `targets`
object is rebuilt (issuing its merge-state queries again) and then left unused by
the orphan records. -/
def getBranchSummaryLocalBranches (env : GitEnv) (environmentBranches : List String) :
    List FeatureBranchSummary × List MergeQuery :=
  let tm := mkTargets env environmentBranches
  ((orphanLocalBranchNames env).map (classifyOrphanLocalBranch env environmentBranches),
   tm.2)

/-- `getBranchSummaryResult` (GitHelper.ts lines 54-63): remote records followed
by orphan local records, with the merge-state queries of both passes. -/
def getBranchSummaryResult (env : GitEnv) (environmentBranches : List String) :
    List FeatureBranchSummary × List MergeQuery :=
  let remotePart := getBranchSummaryRemoteBranches env environmentBranches
  let localPart := getBranchSummaryLocalBranches env environmentBranches
  (remotePart.1 ++ localPart.1, remotePart.2 ++ localPart.2)

/-- The commander value of `-c, --cleanup [ALL]`: absent, bare flag (`true` in
JS), or a string value. -/
inductive CleanupOption where
  | unset
  | flagTrue
  | strVal (s : String)

deriving instance DecidableEq for CleanupOption

/-- JS truthiness of `this.options.cleanup`. -/
def CleanupOption.truthy : CleanupOption → Bool
  | .unset => false
  | .flagTrue => true
  | .strVal s => s != ""

/-- `this.options.cleanup === "ALL"`. -/
def CleanupOption.isAll : CleanupOption → Bool
  | .strVal s => s == "ALL"
  | _ => false

/-- `fullyMergedBranches` (ConsoleHelper.ts line 111). -/
def fullyMergedBranches (l : List FeatureBranchSummary) : List FeatureBranchSummary :=
  l.filter (fun branch => branch.isFullyMerged && !branch.isEnvironmentBranch)

/-- `neverMergedBranches` (ConsoleHelper.ts line 112). -/
def neverMergedBranches (l : List FeatureBranchSummary) : List FeatureBranchSummary :=
  l.filter (fun branch => branch.isNeverMerged)

/-- `canBeMergedBranches` (ConsoleHelper.ts line 113). -/
def canBeMergedBranches (l : List FeatureBranchSummary) : List FeatureBranchSummary :=
  l.filter (fun branch =>
    !branch.isFullyMerged && !branch.isNeverMerged && !branch.isEnvironmentBranch
      && !branch.isLocalOnly)

/-- `orphanLocalBranches` (ConsoleHelper.ts line 114). -/
def orphanLocalBranches (l : List FeatureBranchSummary) : List FeatureBranchSummary :=
  l.filter (fun branch => branch.isLocalOnly)

/-- `eligibleForDeletion` (ConsoleHelper.ts line 154). -/
def eligibleForDeletion (cleanup : CleanupOption) (l : List FeatureBranchSummary) :
    List FeatureBranchSummary :=
  if cleanup.isAll then
    canBeMergedBranches l ++ fullyMergedBranches l ++ neverMergedBranches l
      ++ orphanLocalBranches l
  else
    fullyMergedBranches l ++ orphanLocalBranches l

/-- The list handed to `doCleanup` (ConsoleHelper.ts line 163):
`eligibleForDeletion.filter(branch => !branch.isCurrent)`. -/
def branchesToClean (cleanup : CleanupOption) (l : List FeatureBranchSummary) :
    List FeatureBranchSummary :=
  (eligibleForDeletion cleanup l).filter (fun branch => !branch.isCurrent)

/-- A deletion issued by the deletion region of GitHelper.ts: an individual
remote push-delete, or one batch `deleteLocalBranches` call.  `errorCaught`
records whether the call carries a `.catch(this.handleGitError)` handler. -/
inductive DelAction where
  | pushDelete (branch : String) (errorCaught : Bool)
  | deleteLocalBatch (branches : List String) (errorCaught : Bool)

deriving instance DecidableEq for DelAction

/-- `getRemoteBranchesSimplified` (GitHelper.ts lines 358-362). -/
def getRemoteBranchesSimplified (branches : List String) : List String :=
  (branches.filter (fun branch => strStartsWith branch Constants.ORIGIN)).map
    (fun branch => replaceFirst branch Constants.ORIGIN)

/-- `deleteRemoteBranches` (GitHelper.ts lines 339-349): one push-delete per
simplified remote name, each awaited with a `.catch` handler so a failure does
not abort the remaining iterations. -/
def deleteRemoteBranches (selectedBranches : List String) : List DelAction :=
  let remoteBranches := getRemoteBranchesSimplified selectedBranches
  remoteBranches.map (fun branch => DelAction.pushDelete branch true)

/-- `deleteMatchingLocalBranches` (GitHelper.ts lines 393-408): the intersection
of the simplified remote names with the local branches, deleted in one batch
call without a `.catch` handler. -/
def deleteMatchingLocalBranches (selectedBranches localBranches : List String) :
    List DelAction :=
  let remoteBranches := getRemoteBranchesSimplified selectedBranches
  if remoteBranches.length ≠ 0 then
    let matchingLocalBranches := remoteBranches.filter (fun item => localBranches.contains item)
    if matchingLocalBranches.length ≠ 0 then
      [DelAction.deleteLocalBatch matchingLocalBranches false]
    else []
  else []

/-- `deleteOrphanLocalBranches` (GitHelper.ts lines 424-432): the selected names
without the remote qualifier, deleted in one batch call with a `.catch` handler. -/
def deleteOrphanLocalBranches (selectedBranches : List String) : List DelAction :=
  let localBranches := selectedBranches.filter
    (fun branch => !(strStartsWith branch Constants.ORIGIN))
  if localBranches.length ≠ 0 then
    [DelAction.deleteLocalBatch localBranches true]
  else []

/-- `deleteLocalBranches` (GitHelper.ts lines 375-380); `localAll` is the
`branchLocal().all` response. -/
def deleteLocalBranches (selectedBranches localAll : List String) : List DelAction :=
  deleteMatchingLocalBranches selectedBranches localAll
    ++ deleteOrphanLocalBranches selectedBranches

/-- `deleteBranches` (GitHelper.ts lines 318-323). -/
def deleteBranches (selectedBranches localAll : List String) : List DelAction :=
  deleteRemoteBranches selectedBranches ++ deleteLocalBranches selectedBranches localAll

/-- The individually push-deleted remote names of an action trace. -/
def pushDeletesOf (actions : List DelAction) : List String :=
  actions.filterMap (fun a =>
    match a with
    | DelAction.pushDelete b _ => some b
    | DelAction.deleteLocalBatch _ _ => none)

/-- The batch `deleteLocalBranches` calls of an action trace. -/
def batchesOf (actions : List DelAction) : List (List String) :=
  actions.filterMap (fun a =>
    match a with
    | DelAction.pushDelete _ _ => none
    | DelAction.deleteLocalBatch bs _ => some bs)

/-- Duplicate removal keeping the first occurrence of every name, relative to
names already seen: the key order a JS object accumulates under repeated
assignment. -/
def dedupKeepFirstAux (seen : List String) : List String → List String
  | [] => []
  | x :: xs =>
    if x ∈ seen then dedupKeepFirstAux seen xs
    else x :: dedupKeepFirstAux (seen ++ [x]) xs

/-- Duplicate removal keeping the first occurrence of every name. -/
def dedupKeepFirst (l : List String) : List String :=
  dedupKeepFirstAux [] l

/-- A concrete run environment used to witness the classification theorems:
two environment branches DEV and master, a branch merged into both, a branch
merged into neither, and one orphan local branch. -/
def envW : GitEnv where
  mergedQ := fun n =>
    if n = "DEV" then ["origin/DEV", "origin/feat/a"] else ["origin/master", "origin/feat/a"]
  unmergedQ := fun n =>
    if n = "DEV" then ["origin/master", "origin/feat/b"] else ["origin/DEV", "origin/feat/b"]
  remoteBranches :=
    [("origin/DEV", "c1"), ("origin/master", "c2"), ("origin/feat/a", "c3"),
     ("origin/feat/b", "c4")]
  branchLocal := ⟨"feat/a", ["feat/a", "oldlocal"]⟩
  commitInfo := fun _ => ("2024-05-01", "alice")
  filesTouched := fun _ => ["f1"]

/-- A run in which every merged query comes back empty (the gateway treats
failures as empty results), so the environment branch origin/DEV itself is
classified never-merged. -/
def envC2 : GitEnv where
  mergedQ := fun _ => []
  unmergedQ := fun _ => ["origin/DEV"]
  remoteBranches := [("origin/DEV", "c1")]
  branchLocal := ⟨"m", []⟩
  commitInfo := fun _ => ("2024-05-01", "alice")
  filesTouched := fun _ => []

/-- The summary record the run `envW`, E = ["DEV"] produces for the remote
branch origin/DEV (its classification loop runs with current branch feat/a). -/
def recDEV : FeatureBranchSummary :=
  classifyRemoteBranch envW ["DEV"] (mkTargets envW ["DEV"]).1 "origin/feat/a" ("origin/DEV", "c1")

/-- A fully merged, non-environment summary record. -/
def recW : FeatureBranchSummary :=
  { branch := "origin/feat/a"
    committedAt := "2024-05-01"
    committedBy := "alice"
    target := [("DEV", true)]
    filesTouched := ["f1"]
    isCurrent := false
    isFullyMerged := true
    isNeverMerged := false
    isEnvironmentBranch := false
    isLocalOnly := false
    hasPossibleConflictingFiles := false }

/-- `envW` with every `--no-merged` response replaced. -/
def envC8b : GitEnv :=
  { envW with unmergedQ := fun _ => ["origin/zzz"] }

/-- The current-branch name against which remote records are compared
(GitHelper.ts lines 117-119: qualified with origin/ when non-empty). -/
def currentRemoteName (env : GitEnv) : String :=
  if env.branchLocal.current ≠ "" then "origin/" ++ env.branchLocal.current
  else env.branchLocal.current

/-! ### Library of facts about the JS-object model and the helper folds -/

theorem any_key_iff {α : Type} (m : List (String × α)) (k : String) :
    m.any (fun p => p.1 == k) = true ↔ k ∈ m.map Prod.fst := by
  simp only [List.any_eq_true, List.mem_map, beq_iff_eq]

theorem objInsert_ne_nil {α : Type} (m : List (String × α)) (k : String) (v : α) :
    objInsert m k v ≠ [] := by
  cases m with
  | nil => simp [objInsert]
  | cons p t =>
    unfold objInsert
    split <;> simp

theorem objLookup_map_replace_ne {α : Type} (m : List (String × α)) (k k2 : String) (v : α)
    (h : k2 ≠ k) :
    objLookup (m.map (fun p => if p.1 == k then (k, v) else p)) k2 = objLookup m k2 := by
  induction m with
  | nil => rfl
  | cons p t ih =>
    simp only [List.map_cons]
    by_cases hp : p.1 = k
    · have h1 : (p.1 == k) = true := by simp [hp]
      have h2 : (k == k2) = false := by simp [beq_iff_eq]; exact fun hx => h hx.symm
      have h3 : (p.1 == k2) = false := by simp [beq_iff_eq, hp]; exact fun hx => h hx.symm
      simp only [objLookup, h1, if_true, h2, h3, Bool.false_eq_true, if_false]
      exact ih
    · have h1 : (p.1 == k) = false := by simp [beq_iff_eq, hp]
      simp only [objLookup, h1, Bool.false_eq_true, if_false]
      rw [ih]

theorem objLookup_map_replace_eq {α : Type} (m : List (String × α)) (k : String) (v : α)
    (h : m.any (fun p => p.1 == k) = true) :
    objLookup (m.map (fun p => if p.1 == k then (k, v) else p)) k = some v := by
  induction m with
  | nil => simp at h
  | cons p t ih =>
    simp only [List.map_cons]
    by_cases hp : p.1 = k
    · have h1 : (p.1 == k) = true := by simp [hp]
      simp [objLookup, h1]
    · have h1 : (p.1 == k) = false := by simp [beq_iff_eq, hp]
      have ht : t.any (fun p => p.1 == k) = true := by
        simp only [List.any_cons, h1, Bool.false_or] at h
        exact h
      simp only [objLookup, h1, Bool.false_eq_true, if_false]
      exact ih ht

theorem objLookup_eq_none {α : Type} (m : List (String × α)) (k : String)
    (h : m.any (fun p => p.1 == k) = false) :
    objLookup m k = none := by
  induction m with
  | nil => rfl
  | cons p t ih =>
    simp only [List.any_cons, Bool.or_eq_false_iff] at h
    simp [objLookup, h.1, ih h.2]

theorem objLookup_append {α : Type} (m1 m2 : List (String × α)) (k : String) :
    objLookup (m1 ++ m2) k =
      match objLookup m1 k with
      | some v => some v
      | none => objLookup m2 k := by
  induction m1 with
  | nil => rfl
  | cons p t ih =>
    by_cases hp : (p.1 == k) = true
    · simp [objLookup, hp]
    · simp [objLookup, hp, ih]

theorem objLookup_objInsert {α : Type} (m : List (String × α)) (k k2 : String) (v : α) :
    objLookup (objInsert m k v) k2 = if k2 = k then some v else objLookup m k2 := by
  by_cases hany : m.any (fun p => p.1 == k) = true
  · rw [objInsert, if_pos hany]
    by_cases hk : k2 = k
    · subst hk; rw [if_pos rfl, objLookup_map_replace_eq m k2 v hany]
    · rw [if_neg hk, objLookup_map_replace_ne m k k2 v hk]
  · rw [objInsert, if_neg hany, objLookup_append]
    by_cases hk : k2 = k
    · subst hk
      rw [objLookup_eq_none m k2 (by rwa [Bool.not_eq_true] at hany)]
      simp [objLookup]
    · have h1 : (k == k2) = false := by simp [beq_iff_eq]; exact fun hx => hk hx.symm
      rw [if_neg hk]
      cases hm : objLookup m k2 with
      | some w => simp
      | none => simp [objLookup, h1]

theorem keys_objInsert {α : Type} (m : List (String × α)) (k : String) (v : α) :
    (objInsert m k v).map Prod.fst =
      if k ∈ m.map Prod.fst then m.map Prod.fst else m.map Prod.fst ++ [k] := by
  by_cases hany : m.any (fun p => p.1 == k) = true
  · rw [objInsert, if_pos hany, if_pos ((any_key_iff m k).mp hany), List.map_map]
    apply List.map_congr_left
    intro p _
    by_cases hp : p.1 = k
    · simp [hp]
    · simp [beq_iff_eq, hp]
  · have hmem : k ∉ m.map Prod.fst := fun hc => by
      rw [(any_key_iff m k).mpr hc] at hany; exact hany rfl
    rw [objInsert, if_neg hany, if_neg hmem]
    simp

theorem objInsert_self {α : Type} (m : List (String × α)) (k : String) (v : String → α)
    (hcons : ∀ p ∈ m, p.2 = v p.1) (hmem : k ∈ m.map Prod.fst) :
    objInsert m k (v k) = m := by
  rw [objInsert, if_pos ((any_key_iff m k).mpr hmem)]
  conv_rhs => rw [(List.map_id m).symm]
  apply List.map_congr_left
  intro p hp
  by_cases hk : p.1 = k
  · subst hk
    simp only [beq_self_eq_true, if_true, id]
    have := hcons p hp
    rw [← this]
  · simp [beq_iff_eq, hk, id]

theorem objInsert_consistent {α : Type} (m : List (String × α)) (k : String) (v : String → α)
    (hcons : ∀ p ∈ m, p.2 = v p.1) :
    ∀ p ∈ objInsert m k (v k), p.2 = v p.1 := by
  intro p hp
  rw [objInsert] at hp
  split at hp
  · rw [List.mem_map] at hp
    obtain ⟨q, hq, rfl⟩ := hp
    by_cases hk : q.1 = k
    · simp [hk]
    · simp only [beq_iff_eq, hk, if_false]
      exact hcons q hq
  · rw [List.mem_append] at hp
    rcases hp with hp | hp
    · exact hcons p hp
    · simp at hp
      subst hp
      rfl

theorem foldl_objInsert_lookup {α : Type} (v : String → α) (E : List String) (k : String) :
    ∀ m0 : List (String × α),
      objLookup (E.foldl (fun m n => objInsert m n (v n)) m0) k =
        if k ∈ E then some (v k) else objLookup m0 k := by
  induction E with
  | nil => intro m0; simp
  | cons x xs ih =>
    intro m0
    simp only [List.foldl_cons]
    rw [ih]
    by_cases hx : k ∈ xs
    · rw [if_pos hx, if_pos (List.mem_cons_of_mem x hx)]
    · rw [if_neg hx, objLookup_objInsert]
      by_cases hk : k = x
      · subst hk; simp
      · rw [if_neg hk, if_neg (by simp [hk, hx])]

theorem foldl_objInsert_ne_nil {α : Type} (v : String → α) (E : List String) :
    ∀ m0 : List (String × α), m0 ≠ [] →
      E.foldl (fun m n => objInsert m n (v n)) m0 ≠ [] := by
  induction E with
  | nil => intro m0 h; simpa
  | cons x xs ih =>
    intro m0 _
    simp only [List.foldl_cons]
    exact ih _ (objInsert_ne_nil m0 x (v x))

theorem keys_foldl_objInsert {α : Type} (v : String → α) (E : List String) :
    ∀ m0 : List (String × α),
      (E.foldl (fun m n => objInsert m n (v n)) m0).map Prod.fst =
        m0.map Prod.fst ++ dedupKeepFirstAux (m0.map Prod.fst) E := by
  induction E with
  | nil => intro m0; simp [dedupKeepFirstAux]
  | cons x xs ih =>
    intro m0
    simp only [List.foldl_cons]
    rw [ih, keys_objInsert]
    by_cases hx : x ∈ m0.map Prod.fst
    · rw [if_pos hx]
      simp [dedupKeepFirstAux, hx]
    · rw [if_neg hx]
      simp [dedupKeepFirstAux, hx, List.append_assoc]

theorem foldl_objInsert_dedup {α : Type} (v : String → α) (E : List String) :
    ∀ m0 : List (String × α), (∀ p ∈ m0, p.2 = v p.1) →
      E.foldl (fun m n => objInsert m n (v n)) m0 =
        (dedupKeepFirstAux (m0.map Prod.fst) E).foldl (fun m n => objInsert m n (v n)) m0 := by
  induction E with
  | nil => intro m0 _; rfl
  | cons x xs ih =>
    intro m0 hm
    simp only [List.foldl_cons]
    by_cases hx : x ∈ m0.map Prod.fst
    · rw [objInsert_self m0 x v hm hx, ih m0 hm]
      simp [dedupKeepFirstAux, hx]
    · have hm1 : ∀ p ∈ objInsert m0 x (v x), p.2 = v p.1 := objInsert_consistent m0 x v hm
      rw [ih _ hm1]
      have hkeys : (objInsert m0 x (v x)).map Prod.fst = m0.map Prod.fst ++ [x] := by
        rw [keys_objInsert, if_neg hx]
      rw [hkeys]
      simp [dedupKeepFirstAux, hx]

theorem foldl_objInsert_congr {α : Type} (v1 v2 : String → α) (E : List String)
    (h : ∀ n ∈ E, v1 n = v2 n) :
    ∀ m0 : List (String × α),
      E.foldl (fun m n => objInsert m n (v1 n)) m0 =
        E.foldl (fun m n => objInsert m n (v2 n)) m0 := by
  induction E with
  | nil => intro m0; rfl
  | cons x xs ih =>
    intro m0
    simp only [List.foldl_cons]
    rw [h x (by simp)]
    exact ih (fun n hn => h n (by simp [hn])) _

theorem mem_dedupKeepFirstAux (a : String) (E : List String) :
    ∀ seen, a ∈ dedupKeepFirstAux seen E ↔ (a ∈ E ∧ a ∉ seen) := by
  induction E with
  | nil => intro seen; simp [dedupKeepFirstAux]
  | cons x xs ih =>
    intro seen
    by_cases hx : x ∈ seen
    · simp only [dedupKeepFirstAux, if_pos hx, ih, List.mem_cons]
      constructor
      · rintro ⟨h1, h2⟩
        exact ⟨Or.inr h1, h2⟩
      · rintro ⟨h1, h2⟩
        rcases h1 with rfl | h1
        · exact absurd hx h2
        · exact ⟨h1, h2⟩
    · simp only [dedupKeepFirstAux, if_neg hx, List.mem_cons, ih, List.mem_append,
        List.mem_singleton]
      constructor
      · rintro (rfl | ⟨h1, h2⟩)
        · exact ⟨Or.inl rfl, hx⟩
        · refine ⟨Or.inr h1, fun hc => h2 (Or.inl hc)⟩
      · rintro ⟨h1, h2⟩
        rcases h1 with rfl | h1
        · exact Or.inl rfl
        · by_cases hax : a = x
          · exact Or.inl hax
          · exact Or.inr ⟨h1, by simp [h2, hax]⟩

theorem nodup_dedupKeepFirstAux (E : List String) :
    ∀ seen, (dedupKeepFirstAux seen E).Nodup := by
  induction E with
  | nil => intro seen; simp [dedupKeepFirstAux]
  | cons x xs ih =>
    intro seen
    by_cases hx : x ∈ seen
    · simp only [dedupKeepFirstAux, if_pos hx]
      exact ih seen
    · simp only [dedupKeepFirstAux, if_neg hx]
      refine List.nodup_cons.mpr ⟨fun hc => ?_, ih _⟩
      have := (mem_dedupKeepFirstAux x xs _).mp hc
      simp at this

theorem mkTargets_fold (env : GitEnv) (E : List String) :
    ∀ (m0 : List (String × EnvironmentBranchData)) (t0 : List MergeQuery),
      E.foldl (fun acc name =>
        (objInsert acc.1 name (getTargetBranchData env name).1,
         acc.2 ++ (getTargetBranchData env name).2)) (m0, t0) =
      (E.foldl (fun m n => objInsert m n (getTargetBranchData env n).1) m0,
       t0 ++ E.flatMap (fun n => [MergeQuery.mergedInto n, MergeQuery.unmergedInto n])) := by
  induction E with
  | nil => intro m0 t0; simp
  | cons x xs ih =>
    intro m0 t0
    simp only [List.foldl_cons, List.flatMap_cons]
    rw [ih]
    simp [getTargetBranchData, List.append_assoc]

theorem mkTargets_eq (env : GitEnv) (E : List String) :
    mkTargets env E =
      (E.foldl (fun m n => objInsert m n (getTargetBranchData env n).1) [],
       E.flatMap (fun n => [MergeQuery.mergedInto n, MergeQuery.unmergedInto n])) := by
  rw [mkTargets, mkTargets_fold]
  simp

theorem lookupEnvData_mkTargets (env : GitEnv) (E : List String) (k : String) :
    lookupEnvData (mkTargets env E).1 k =
      if k ∈ E then ⟨env.mergedQ k, env.unmergedQ k⟩ else ⟨[], []⟩ := by
  rw [mkTargets_eq]
  simp only
  rw [lookupEnvData, foldl_objInsert_lookup]
  by_cases hk : k ∈ E
  · simp [hk, getTargetBranchData]
  · simp [hk, objLookup]

theorem isPrefixOf_append_self (l r : List Char) : l.isPrefixOf (l ++ r) = true := by
  induction l with
  | nil => simp [List.isPrefixOf]
  | cons c cs ih => simp [List.isPrefixOf, ih]

theorem removeFirstOcc_append (pat rest : List Char) (h : pat ≠ []) :
    removeFirstOcc pat (pat ++ rest) = rest := by
  cases pat with
  | nil => exact absurd rfl h
  | cons c cs =>
    rw [List.cons_append, removeFirstOcc, if_pos, List.length_cons, ← List.cons_append,
      ← List.length_cons c cs, List.drop_left]
    rw [← List.cons_append]
    exact isPrefixOf_append_self (c :: cs) rest

theorem replaceFirst_origin_append (s : String) :
    replaceFirst ("origin/" ++ s) Constants.ORIGIN = s := by
  rw [replaceFirst, Constants.ORIGIN, String.data_append,
    removeFirstOcc_append _ _ (by decide)]

theorem replaceFirst_empty_origin : replaceFirst "" Constants.ORIGIN = "" := by
  rfl

@[simp] theorem classify_branch (env : GitEnv) (E : List String)
    (ts : List (String × EnvironmentBranchData)) (cur : String) (b : String × String) :
    (classifyRemoteBranch env E ts cur b).branch = b.1 := rfl

@[simp] theorem classify_target (env : GitEnv) (E : List String)
    (ts : List (String × EnvironmentBranchData)) (cur : String) (b : String × String) :
    (classifyRemoteBranch env E ts cur b).target =
      E.foldl (fun t name => objInsert t name ((lookupEnvData ts name).merged.contains b.1)) [] :=
  rfl

@[simp] theorem classify_isFullyMerged (env : GitEnv) (E : List String)
    (ts : List (String × EnvironmentBranchData)) (cur : String) (b : String × String) :
    (classifyRemoteBranch env E ts cur b).isFullyMerged =
      ((classifyRemoteBranch env E ts cur b).target.map Prod.snd).all (fun item => item) := rfl

@[simp] theorem classify_isNeverMerged (env : GitEnv) (E : List String)
    (ts : List (String × EnvironmentBranchData)) (cur : String) (b : String × String) :
    (classifyRemoteBranch env E ts cur b).isNeverMerged =
      ((classifyRemoteBranch env E ts cur b).target.map Prod.snd).all (fun item => !item) := rfl

@[simp] theorem classify_isCurrent (env : GitEnv) (E : List String)
    (ts : List (String × EnvironmentBranchData)) (cur : String) (b : String × String) :
    (classifyRemoteBranch env E ts cur b).isCurrent = (cur == b.1) := rfl

@[simp] theorem classify_isLocalOnly (env : GitEnv) (E : List String)
    (ts : List (String × EnvironmentBranchData)) (cur : String) (b : String × String) :
    (classifyRemoteBranch env E ts cur b).isLocalOnly = false := rfl

@[simp] theorem classify_isEnvironmentBranch (env : GitEnv) (E : List String)
    (ts : List (String × EnvironmentBranchData)) (cur : String) (b : String × String) :
    (classifyRemoteBranch env E ts cur b).isEnvironmentBranch =
      (E.map (fun item => Constants.ORIGIN ++ item)).contains b.1 := rfl

@[simp] theorem orphan_branch (env : GitEnv) (E : List String) (b : String) :
    (classifyOrphanLocalBranch env E b).branch = b := rfl

@[simp] theorem orphan_target (env : GitEnv) (E : List String) (b : String) :
    (classifyOrphanLocalBranch env E b).target =
      E.foldl (fun t name => objInsert t name false) [] := rfl

@[simp] theorem orphan_committedAt (env : GitEnv) (E : List String) (b : String) :
    (classifyOrphanLocalBranch env E b).committedAt = "" := rfl

@[simp] theorem orphan_committedBy (env : GitEnv) (E : List String) (b : String) :
    (classifyOrphanLocalBranch env E b).committedBy = "" := rfl

@[simp] theorem orphan_isCurrent (env : GitEnv) (E : List String) (b : String) :
    (classifyOrphanLocalBranch env E b).isCurrent = (env.branchLocal.current == b) := rfl

@[simp] theorem orphan_isFullyMerged (env : GitEnv) (E : List String) (b : String) :
    (classifyOrphanLocalBranch env E b).isFullyMerged = false := rfl

@[simp] theorem orphan_isNeverMerged (env : GitEnv) (E : List String) (b : String) :
    (classifyOrphanLocalBranch env E b).isNeverMerged = false := rfl

@[simp] theorem orphan_isEnvironmentBranch (env : GitEnv) (E : List String) (b : String) :
    (classifyOrphanLocalBranch env E b).isEnvironmentBranch = false := rfl

@[simp] theorem orphan_isLocalOnly (env : GitEnv) (E : List String) (b : String) :
    (classifyOrphanLocalBranch env E b).isLocalOnly = true := rfl

/-- The adjusted current-branch name computed at GitHelper.ts lines 117-119. -/
theorem remote_records_eq (env : GitEnv) (E : List String) :
    (getBranchSummaryRemoteBranches env E).1 =
      env.remoteBranches.map (classifyRemoteBranch env E (mkTargets env E).1
        (if env.branchLocal.current ≠ "" then "origin/" ++ env.branchLocal.current
         else env.branchLocal.current)) := rfl

theorem local_records_eq (env : GitEnv) (E : List String) :
    (getBranchSummaryLocalBranches env E).1 =
      (orphanLocalBranchNames env).map (classifyOrphanLocalBranch env E) := rfl

theorem result_records_eq (env : GitEnv) (E : List String) :
    (getBranchSummaryResult env E).1 =
      (getBranchSummaryRemoteBranches env E).1 ++ (getBranchSummaryLocalBranches env E).1 := rfl

theorem targetFold_ne_nil {α : Type} (v : String → α) (E : List String) (hE : E ≠ []) :
    E.foldl (fun m n => objInsert m n (v n)) [] ≠ [] := by
  cases E with
  | nil => exact absurd rfl hE
  | cons x xs =>
    simp only [List.foldl_cons]
    exact foldl_objInsert_ne_nil v xs _ (objInsert_ne_nil [] x (v x))

theorem all_id_not_both (l : List Bool) (h : l ≠ []) :
    ¬(l.all (fun item => item) = true ∧ l.all (fun item => !item) = true) := by
  rintro ⟨h1, h2⟩
  cases l with
  | nil => exact h rfl
  | cons b t =>
    simp only [List.all_cons, Bool.and_eq_true] at h1 h2
    rw [h1.1] at h2
    simp at h2

/-- C1: classification emits exactly one record per listed remote branch;
whenever the environment-branch list is non-empty no produced record carries
both `isFullyMerged` and `isNeverMerged`; with an empty environment-branch list
both flags are (vacuously) true on every remote record. -/
theorem c1_exactly_once_and_exclusive_flags (env : GitEnv) (E : List String) :
    ((getBranchSummaryRemoteBranches env E).1.map (fun r => r.branch) =
        env.remoteBranches.map Prod.fst)
    ∧ (E ≠ [] → ∀ r ∈ (getBranchSummaryResult env E).1,
        ¬(r.isFullyMerged = true ∧ r.isNeverMerged = true))
    ∧ (E = [] → ∀ r ∈ (getBranchSummaryRemoteBranches env E).1,
        r.isFullyMerged = true ∧ r.isNeverMerged = true) := by
  refine ⟨?_, ?_, ?_⟩
  · rw [remote_records_eq, List.map_map]
    rfl
  · intro hE r hr
    rw [result_records_eq, List.mem_append] at hr
    rcases hr with hr | hr
    · rw [remote_records_eq, List.mem_map] at hr
      obtain ⟨b, hb, rfl⟩ := hr
      simp only [classify_isFullyMerged, classify_isNeverMerged, classify_target]
      refine all_id_not_both _ (fun hc => ?_)
      exact targetFold_ne_nil
        (fun name => (lookupEnvData (mkTargets env E).1 name).merged.contains b.1) E hE
        (by simpa using hc)
    · rw [local_records_eq, List.mem_map] at hr
      obtain ⟨b, hb, rfl⟩ := hr
      simp
  · intro hE r hr
    subst hE
    rw [remote_records_eq, List.mem_map] at hr
    obtain ⟨b, hb, rfl⟩ := hr
    simp only [classify_isFullyMerged, classify_isNeverMerged, classify_target]
    simp

theorem c1_witness :
    (["DEV"] ≠ ([] : List String))
    ∧ (∀ r ∈ (getBranchSummaryResult envW ["DEV"]).1,
        ¬(r.isFullyMerged = true ∧ r.isNeverMerged = true)) :=
  ⟨by decide, (c1_exactly_once_and_exclusive_flags envW ["DEV"]).2.1 (by decide)⟩

theorem flatMap_pair_length {α : Type} (E : List String) (f g : String → α) :
    (E.flatMap (fun n => [f n, g n])).length = 2 * E.length := by
  induction E with
  | nil => rfl
  | cons x xs ih =>
    simp only [List.flatMap_cons, List.length_append, List.length_cons, ih, List.length_nil]
    omega

theorem result_queries_eq (env : GitEnv) (E : List String) :
    (getBranchSummaryResult env E).2 = (mkTargets env E).2 ++ (mkTargets env E).2 := rfl

/-- C3 (amended): one run of getBranchSummaryResult recomputes the merged and
unmerged sets in each of its two classification passes, so each environment
branch is queried twice with `--merged` and twice with `--no-merged`: 4×N
merge-state queries for N environment branches, with no caching. -/
theorem c3_amended_four_queries_per_branch (env : GitEnv) (E : List String) :
    ((getBranchSummaryResult env E).2 =
      E.flatMap (fun n => [MergeQuery.mergedInto n, MergeQuery.unmergedInto n])
        ++ E.flatMap (fun n => [MergeQuery.mergedInto n, MergeQuery.unmergedInto n]))
    ∧ (getBranchSummaryResult env E).2.length = 4 * E.length := by
  have h2 : (mkTargets env E).2 =
      E.flatMap (fun n => [MergeQuery.mergedInto n, MergeQuery.unmergedInto n]) := by
    rw [mkTargets_eq]
  refine ⟨by rw [result_queries_eq, h2], ?_⟩
  rw [result_queries_eq, h2, List.length_append, flatMap_pair_length]
  omega

/-- C3 counterexample: with the single environment branch DEV the run issues 4
merge-state queries, not the 2×N = 2 the claim asserts. -/
theorem c3_counterexample :
    ¬((getBranchSummaryResult envW ["DEV"]).2.length =
        2 * (["DEV"] : List String).length) := by
  decide

/-- C4: the list handed to the interactive deletion step is the eligible set
with every `isCurrent` record filtered out, so no record reaching selection
(and hence deleteBranches) is the checked-out branch. -/
theorem c4_current_excluded_from_cleanup (cleanup : CleanupOption)
    (l : List FeatureBranchSummary) :
    ∀ r ∈ branchesToClean cleanup l,
      r.isCurrent = false ∧ r ∈ eligibleForDeletion cleanup l := by
  intro r hr
  rw [branchesToClean, List.mem_filter] at hr
  exact ⟨by simpa using hr.2, hr.1⟩

theorem c4_witness :
    recW.isCurrent = false ∧ recW ∈ eligibleForDeletion CleanupOption.flagTrue [recW] :=
  c4_current_excluded_from_cleanup CleanupOption.flagTrue [recW] recW (by decide)

/-- C5: with the cleanup option set and different from "ALL" the eligible set
is the union of fully merged non-environment records and orphan local records;
with cleanup = "ALL" it also admits the mergeable-pending and never-merged
records. -/
theorem c5_eligible_set_by_mode (cleanup : CleanupOption)
    (l : List FeatureBranchSummary) (r : FeatureBranchSummary) :
    (cleanup.truthy = true → cleanup.isAll = false →
      (r ∈ eligibleForDeletion cleanup l ↔ r ∈ l ∧
        ((r.isFullyMerged = true ∧ r.isEnvironmentBranch = false) ∨ r.isLocalOnly = true)))
    ∧ (cleanup.isAll = true →
      (r ∈ eligibleForDeletion cleanup l ↔ r ∈ l ∧
        ((r.isFullyMerged = false ∧ r.isNeverMerged = false ∧ r.isEnvironmentBranch = false
            ∧ r.isLocalOnly = false)
          ∨ (r.isFullyMerged = true ∧ r.isEnvironmentBranch = false)
          ∨ r.isNeverMerged = true
          ∨ r.isLocalOnly = true))) := by
  constructor
  · intro _ hall
    rw [eligibleForDeletion, if_neg (by simp [hall])]
    simp only [List.mem_append, fullyMergedBranches, orphanLocalBranches, List.mem_filter,
      Bool.and_eq_true, Bool.not_eq_true']
    tauto
  · intro hall
    rw [eligibleForDeletion, if_pos hall]
    simp only [List.mem_append, fullyMergedBranches, orphanLocalBranches, canBeMergedBranches,
      neverMergedBranches, List.mem_filter, Bool.and_eq_true, Bool.not_eq_true']
    tauto

theorem c5_witness :
    recW ∈ eligibleForDeletion CleanupOption.flagTrue [recW] ↔
      recW ∈ [recW] ∧ ((recW.isFullyMerged = true ∧ recW.isEnvironmentBranch = false)
        ∨ recW.isLocalOnly = true) :=
  (c5_eligible_set_by_mode CleanupOption.flagTrue [recW] recW).1 (by decide) (by decide)

/-- C2 counterexample: in the run `envC2`, E = ["DEV"], the record of the
environment branch origin/DEV is flagged `isEnvironmentBranch` yet appears in
the never-merged follow-up group, so environment-branch records are not
excluded from that count. -/
theorem c2_counterexample :
    (neverMergedBranches (getBranchSummaryResult envC2 ["DEV"]).1).any
      (fun r => r.isEnvironmentBranch) = true := by
  decide

/-- C2 (amended): a remote record named origin/X for X in E is always flagged
`isEnvironmentBranch`, and environment-branch records are excluded from the
fully-merged follow-up count; the never-merged count, however, filters on
`isNeverMerged` alone, so an environment branch merged into no environment
branch is counted there. -/
theorem c2_amended_env_flag_and_counts (env : GitEnv) (E : List String) :
    (∀ r ∈ (getBranchSummaryRemoteBranches env E).1, ∀ X ∈ E,
        r.branch = Constants.ORIGIN ++ X → r.isEnvironmentBranch = true)
    ∧ (∀ r ∈ fullyMergedBranches (getBranchSummaryResult env E).1,
        r.isEnvironmentBranch = false)
    ∧ (∀ r, r ∈ neverMergedBranches (getBranchSummaryResult env E).1 ↔
        r ∈ (getBranchSummaryResult env E).1 ∧ r.isNeverMerged = true) := by
  refine ⟨?_, ?_, ?_⟩
  · intro r hr X hX hname
    rw [remote_records_eq, List.mem_map] at hr
    obtain ⟨b, hb, rfl⟩ := hr
    rw [classify_isEnvironmentBranch]
    rw [classify_branch] at hname
    simp only [List.contains, List.elem_iff, List.mem_map]
    exact ⟨X, hX, hname.symm⟩
  · intro r hr
    rw [fullyMergedBranches, List.mem_filter] at hr
    have := hr.2
    simp only [Bool.and_eq_true, Bool.not_eq_true'] at this
    exact this.2
  · intro r
    rw [neverMergedBranches, List.mem_filter]

theorem c2_witness : recDEV.isEnvironmentBranch = true :=
  (c2_amended_env_flag_and_counts envW ["DEV"]).1 recDEV (by decide) "DEV" (by decide) (by decide)

theorem foldl_objInsert_consistent {α : Type} (v : String → α) (E : List String) :
    ∀ m0 : List (String × α), (∀ p ∈ m0, p.2 = v p.1) →
      ∀ p ∈ E.foldl (fun m n => objInsert m n (v n)) m0, p.2 = v p.1 := by
  induction E with
  | nil => intro m0 hm; exact hm
  | cons x xs ih =>
    intro m0 hm
    simp only [List.foldl_cons]
    exact ih _ (objInsert_consistent m0 x v hm)

/-- C6: every local branch without a same-named remote counterpart (remote names
taken after removing the origin qualifier) yields exactly one record, which is
local-only, has every per-environment target flag false, carries no merge or
environment flags, and has empty commit metadata. -/
theorem c6_orphan_local_records (env : GitEnv) (E : List String)
    (h : env.branchLocal.all.Nodup) :
    (((getBranchSummaryResult env E).1.filter (fun r => r.isLocalOnly)).map (fun r => r.branch)
        = orphanLocalBranchNames env)
    ∧ (orphanLocalBranchNames env).Nodup
    ∧ (∀ r ∈ (getBranchSummaryResult env E).1, r.isLocalOnly = true →
        r.committedAt = "" ∧ r.committedBy = "" ∧ (∀ p ∈ r.target, p.2 = false)
          ∧ r.isFullyMerged = false ∧ r.isNeverMerged = false
          ∧ r.isEnvironmentBranch = false) := by
  refine ⟨?_, List.Nodup.filter _ h, ?_⟩
  · rw [result_records_eq, List.filter_append]
    have h1 : (getBranchSummaryRemoteBranches env E).1.filter (fun r => r.isLocalOnly) = [] := by
      rw [remote_records_eq, List.filter_eq_nil_iff]
      intro a ha
      rw [List.mem_map] at ha
      obtain ⟨b, hb, rfl⟩ := ha
      simp
    have h2 : (getBranchSummaryLocalBranches env E).1.filter (fun r => r.isLocalOnly)
        = (getBranchSummaryLocalBranches env E).1 := by
      rw [local_records_eq, List.filter_eq_self]
      intro a ha
      rw [List.mem_map] at ha
      obtain ⟨b, hb, rfl⟩ := ha
      simp
    rw [h1, h2, local_records_eq, List.nil_append, List.map_map]
    have hcomp : List.map ((fun r => r.branch) ∘ classifyOrphanLocalBranch env E)
        (orphanLocalBranchNames env) = List.map (fun b => b) (orphanLocalBranchNames env) :=
      List.map_congr_left (fun b _ => rfl)
    rw [hcomp, List.map_id']
  · intro r hr hlocal
    rw [result_records_eq, List.mem_append] at hr
    rcases hr with hr | hr
    · rw [remote_records_eq, List.mem_map] at hr
      obtain ⟨b, hb, rfl⟩ := hr
      rw [classify_isLocalOnly] at hlocal
      simp at hlocal
    · rw [local_records_eq, List.mem_map] at hr
      obtain ⟨b, hb, rfl⟩ := hr
      refine ⟨rfl, rfl, ?_, rfl, rfl, rfl⟩
      rw [orphan_target]
      exact foldl_objInsert_consistent (fun _ => false) E [] (by simp)

theorem c6_witness :
    ((getBranchSummaryResult envW ["DEV"]).1.filter (fun r => r.isLocalOnly)).map
      (fun r => r.branch) = orphanLocalBranchNames envW := by
  have t := c6_orphan_local_records envW ["DEV"] (by decide)
  exact t.1

theorem pushDeletesOf_pushList (l : List String) (c : Bool) :
    pushDeletesOf (l.map (fun b => DelAction.pushDelete b c)) = l := by
  induction l with
  | nil => rfl
  | cons x xs ih =>
    simp only [List.map_cons, pushDeletesOf, List.filterMap_cons] at ih ⊢
    rw [ih]

theorem batchesOf_pushList (l : List String) (c : Bool) :
    batchesOf (l.map (fun b => DelAction.pushDelete b c)) = [] := by
  induction l with
  | nil => rfl
  | cons x xs ih =>
    simp only [List.map_cons, batchesOf, List.filterMap_cons] at ih ⊢
    rw [ih]

theorem pushDeletesOf_matching (selected localAll : List String) :
    pushDeletesOf (deleteMatchingLocalBranches selected localAll) = [] := by
  simp only [deleteMatchingLocalBranches]
  split
  · split
    · rfl
    · rfl
  · rfl

theorem pushDeletesOf_orphans (selected : List String) :
    pushDeletesOf (deleteOrphanLocalBranches selected) = [] := by
  simp only [deleteOrphanLocalBranches]
  split
  · rfl
  · rfl

/-- C7: deleteBranches partitions its input on the origin qualifier: every
origin-qualified name is push-deleted individually (each with its error
handler, so one failure cannot abort the rest), while the matching local
tracking branches and the local-only orphans are each deleted by a single
whole-list batch call (the matching batch without an error handler, the orphan
batch with one). -/
theorem c7_delete_partition_and_error_handling (selected localAll : List String) :
    (pushDeletesOf (deleteBranches selected localAll) =
        (selected.filter (fun branch => strStartsWith branch Constants.ORIGIN)).map
          (fun branch => replaceFirst branch Constants.ORIGIN))
    ∧ (∀ a ∈ deleteBranches selected localAll, ∀ b c,
        a = DelAction.pushDelete b c → c = true)
    ∧ (∀ bs ∈ batchesOf (deleteBranches selected localAll),
        bs = (getRemoteBranchesSimplified selected).filter (fun item => localAll.contains item)
          ∨ bs = selected.filter (fun branch => !(strStartsWith branch Constants.ORIGIN)))
    ∧ ((getRemoteBranchesSimplified selected).filter (fun item => localAll.contains item) ≠ [] →
        DelAction.deleteLocalBatch
          ((getRemoteBranchesSimplified selected).filter (fun item => localAll.contains item))
          false ∈ deleteBranches selected localAll)
    ∧ (∀ n ∈ selected, strStartsWith n Constants.ORIGIN = false →
        DelAction.deleteLocalBatch
          (selected.filter (fun branch => !(strStartsWith branch Constants.ORIGIN)))
          true ∈ deleteBranches selected localAll) := by
  refine ⟨?_, ?_, ?_, ?_, ?_⟩
  · rw [deleteBranches, deleteLocalBranches, pushDeletesOf, List.filterMap_append,
      List.filterMap_append]
    rw [← pushDeletesOf, ← pushDeletesOf, ← pushDeletesOf, pushDeletesOf_matching,
      pushDeletesOf_orphans, deleteRemoteBranches, pushDeletesOf_pushList]
    rw [List.append_nil, List.append_nil, getRemoteBranchesSimplified]
  · intro a ha b c heq
    subst heq
    rw [deleteBranches, deleteLocalBranches, List.mem_append, List.mem_append] at ha
    rcases ha with ha | ha | ha
    · simp only [deleteRemoteBranches, List.mem_map] at ha
      obtain ⟨x, hx, heq⟩ := ha
      injection heq with h1 h2
      exact h2.symm
    · simp only [deleteMatchingLocalBranches] at ha
      split at ha
      · split at ha
        · simp at ha
        · simp at ha
      · simp at ha
    · simp only [deleteOrphanLocalBranches] at ha
      split at ha
      · simp at ha
      · simp at ha
  · intro bs hbs
    rw [deleteBranches, deleteLocalBranches, batchesOf, List.filterMap_append,
      List.filterMap_append, ← batchesOf, ← batchesOf, ← batchesOf, deleteRemoteBranches,
      batchesOf_pushList, List.nil_append, List.mem_append] at hbs
    rcases hbs with hbs | hbs
    · simp only [deleteMatchingLocalBranches] at hbs
      split at hbs
      · split at hbs
        · left
          simp only [batchesOf, List.filterMap_cons, List.filterMap_nil] at hbs
          simpa using hbs
        · simp [batchesOf] at hbs
      · simp [batchesOf] at hbs
    · simp only [deleteOrphanLocalBranches] at hbs
      split at hbs
      · right
        simp only [batchesOf, List.filterMap_cons, List.filterMap_nil] at hbs
        simpa using hbs
      · simp [batchesOf] at hbs
  · intro hne
    have hrne : getRemoteBranchesSimplified selected ≠ [] := by
      intro hc
      rw [hc] at hne
      exact hne rfl
    rw [deleteBranches, deleteLocalBranches, List.mem_append, List.mem_append]
    right
    left
    simp only [deleteMatchingLocalBranches]
    rw [if_pos (by simpa [List.length_eq_zero] using hrne),
      if_pos (by simpa [List.length_eq_zero] using hne)]
    simp
  · intro n hn hstart
    have hne : selected.filter (fun branch => !(strStartsWith branch Constants.ORIGIN)) ≠ [] := by
      refine List.ne_nil_of_mem (a := n) ?_
      rw [List.mem_filter]
      exact ⟨hn, by simp [hstart]⟩
    rw [deleteBranches, deleteLocalBranches, List.mem_append, List.mem_append]
    right
    right
    simp only [deleteOrphanLocalBranches]
    rw [if_pos (by simpa [List.length_eq_zero] using hne)]
    simp

theorem c7_witness :
    (pushDeletesOf (deleteBranches ["origin/feat/a", "oldlocal"] ["feat/a", "oldlocal"]) =
        ((["origin/feat/a", "oldlocal"] : List String).filter
            (fun branch => strStartsWith branch Constants.ORIGIN)).map
          (fun branch => replaceFirst branch Constants.ORIGIN))
    ∧ DelAction.deleteLocalBatch ["feat/a"] false
        ∈ deleteBranches ["origin/feat/a", "oldlocal"] ["feat/a", "oldlocal"] := by
  have t := c7_delete_partition_and_error_handling ["origin/feat/a", "oldlocal"]
    ["feat/a", "oldlocal"]
  refine ⟨t.1, ?_⟩
  have := t.2.2.2.1 (by decide)
  simpa using this

theorem records_ignore_unmergedQ (env : GitEnv) (u : String → List String) (E : List String) :
    (getBranchSummaryResult { env with unmergedQ := u } E).1 =
      (getBranchSummaryResult env E).1 := by
  rw [result_records_eq, result_records_eq]
  have hlocal : (getBranchSummaryLocalBranches { env with unmergedQ := u } E).1 =
      (getBranchSummaryLocalBranches env E).1 := rfl
  rw [hlocal]
  have hremote : (getBranchSummaryRemoteBranches { env with unmergedQ := u } E).1 =
      (getBranchSummaryRemoteBranches env E).1 := by
    rw [remote_records_eq, remote_records_eq]
    apply List.map_congr_left
    intro b _
    have htarget :
        E.foldl (fun t name => objInsert t name
          ((lookupEnvData (mkTargets { env with unmergedQ := u } E).1 name).merged.contains b.1))
          [] =
        E.foldl (fun t name => objInsert t name
          ((lookupEnvData (mkTargets env E).1 name).merged.contains b.1)) [] := by
      apply foldl_objInsert_congr
      intro n hn
      rw [lookupEnvData_mkTargets, lookupEnvData_mkTargets, if_pos hn, if_pos hn]
    simp only [classifyRemoteBranch]
    rw [htarget]
  rw [hremote]

/-- C8: the produced summary records never depend on the `--no-merged` query
results: two runs whose gateway responses agree on the merged sets, the remote
branch list, the commit info, the touched files and the branchLocal response
(checked-out branch and local branch list) yield identical records, whatever
their unmerged sets are. -/
theorem c8_records_independent_of_unmerged_sets (e1 e2 : GitEnv) (E : List String)
    (hm : e1.mergedQ = e2.mergedQ) (hr : e1.remoteBranches = e2.remoteBranches)
    (hc : e1.commitInfo = e2.commitInfo) (hf : e1.filesTouched = e2.filesTouched)
    (hl : e1.branchLocal = e2.branchLocal) :
    (getBranchSummaryResult e1 E).1 = (getBranchSummaryResult e2 E).1 := by
  obtain ⟨m1, u1, r1, l1, c1, f1⟩ := e1
  obtain ⟨m2, u2, r2, l2, c2, f2⟩ := e2
  dsimp only at hm hr hc hf hl
  subst hm
  subst hr
  subst hc
  subst hf
  subst hl
  exact (records_ignore_unmergedQ ⟨m1, u1, r1, l1, c1, f1⟩ u2 E).symm

theorem c8_witness :
    (getBranchSummaryResult envW ["DEV"]).1 = (getBranchSummaryResult envC8b ["DEV"]).1 :=
  c8_records_independent_of_unmerged_sets envW envC8b ["DEV"] rfl rfl rfl rfl rfl

theorem contains_congr {α : Type} [BEq α] [LawfulBEq α] (l1 l2 : List α)
    (h : ∀ x, x ∈ l1 ↔ x ∈ l2) (a : α) : l1.contains a = l2.contains a := by
  rw [Bool.eq_iff_iff]
  simp only [List.contains, List.elem_iff]
  exact h a

theorem mem_dedupKeepFirst (a : String) (E : List String) :
    a ∈ dedupKeepFirst E ↔ a ∈ E := by
  rw [dedupKeepFirst, mem_dedupKeepFirstAux]
  simp

theorem mkTargets_dedup (env : GitEnv) (E : List String) :
    (mkTargets env (dedupKeepFirst E)).1 = (mkTargets env E).1 := by
  rw [mkTargets_eq, mkTargets_eq]
  exact (foldl_objInsert_dedup (fun n => (getTargetBranchData env n).1) E [] (by simp)).symm

/-- C10: classification ignores duplicate environment-branch names: every
record's target object holds exactly one key per distinct name (first
occurrence kept, in order), and the records produced for E equal those
produced for E without its duplicates. -/
theorem c10_duplicate_environment_names (env : GitEnv) (E : List String) :
    ((getBranchSummaryResult env E).1 = (getBranchSummaryResult env (dedupKeepFirst E)).1)
    ∧ (∀ r ∈ (getBranchSummaryResult env E).1,
        r.target.map Prod.fst = dedupKeepFirst E
          ∧ (r.target.map Prod.fst).Nodup
          ∧ (∀ n, n ∈ r.target.map Prod.fst ↔ n ∈ E)) := by
  have hmemmap : ∀ b1 : String,
      ((dedupKeepFirst E).map (fun item => Constants.ORIGIN ++ item)).contains b1 =
        (E.map (fun item => Constants.ORIGIN ++ item)).contains b1 := by
    intro b1
    apply contains_congr
    intro x
    simp only [List.mem_map]
    constructor
    · rintro ⟨a, ha, rfl⟩
      exact ⟨a, (mem_dedupKeepFirst a E).mp ha, rfl⟩
    · rintro ⟨a, ha, rfl⟩
      exact ⟨a, (mem_dedupKeepFirst a E).mpr ha, rfl⟩
  constructor
  · rw [result_records_eq, result_records_eq]
    have hremote : (getBranchSummaryRemoteBranches env E).1 =
        (getBranchSummaryRemoteBranches env (dedupKeepFirst E)).1 := by
      rw [remote_records_eq, remote_records_eq]
      apply List.map_congr_left
      intro b _
      have htmap :
          (dedupKeepFirst E).foldl (fun t name => objInsert t name
            ((lookupEnvData (mkTargets env (dedupKeepFirst E)).1 name).merged.contains b.1))
            [] =
          E.foldl (fun t name => objInsert t name
            ((lookupEnvData (mkTargets env E).1 name).merged.contains b.1)) [] := by
        rw [mkTargets_dedup]
        exact (foldl_objInsert_dedup
          (fun name => (lookupEnvData (mkTargets env E).1 name).merged.contains b.1)
          E [] (by simp)).symm
      simp only [classifyRemoteBranch]
      rw [htmap, hmemmap b.1]
    have hlocal : (getBranchSummaryLocalBranches env E).1 =
        (getBranchSummaryLocalBranches env (dedupKeepFirst E)).1 := by
      rw [local_records_eq, local_records_eq]
      apply List.map_congr_left
      intro b _
      have htmap : (dedupKeepFirst E).foldl (fun t name => objInsert t name false) [] =
          E.foldl (fun t name => objInsert t name false) [] :=
        (foldl_objInsert_dedup (fun _ => false) E [] (by simp)).symm
      simp only [classifyOrphanLocalBranch]
      rw [htmap]
    rw [hremote, hlocal]
  · intro r hr
    rw [result_records_eq, List.mem_append] at hr
    have hkeys : ∀ v : String → Bool,
        (E.foldl (fun t name => objInsert t name (v name)) []).map Prod.fst =
          dedupKeepFirst E := by
      intro v
      rw [keys_foldl_objInsert]
      rfl
    rcases hr with hr | hr
    · rw [remote_records_eq, List.mem_map] at hr
      obtain ⟨b, hb, rfl⟩ := hr
      rw [classify_target, hkeys]
      exact ⟨rfl, nodup_dedupKeepFirstAux E [], fun n => mem_dedupKeepFirst n E⟩
    · rw [local_records_eq, List.mem_map] at hr
      obtain ⟨b, hb, rfl⟩ := hr
      rw [orphan_target, hkeys]
      exact ⟨rfl, nodup_dedupKeepFirstAux E [], fun n => mem_dedupKeepFirst n E⟩

theorem c10_witness :
    ((getBranchSummaryResult envW ["DEV", "master", "DEV"]).1 =
      (getBranchSummaryResult envW (dedupKeepFirst ["DEV", "master", "DEV"])).1)
    ∧ recDEV.target.map Prod.fst = dedupKeepFirst ["DEV"] := by
  have t := c10_duplicate_environment_names envW ["DEV", "master", "DEV"]
  have t2 := c10_duplicate_environment_names envW ["DEV"]
  exact ⟨t.1, (t2.2 recDEV (by decide)).1⟩

theorem countP_beq_le_one {α : Type} [BEq α] [LawfulBEq α] (a : α) (l : List α)
    (h : l.Nodup) : l.countP (fun x => a == x) ≤ 1 := by
  induction l with
  | nil => simp
  | cons x xs ih =>
    rw [List.countP_cons]
    by_cases hx : a = x
    · subst hx
      have h0 : xs.countP (fun x => a == x) = 0 := by
        rw [List.countP_eq_zero]
        intro b hb
        simp only [beq_iff_eq]
        rintro rfl
        exact (List.nodup_cons.mp h).1 hb
      simp [h0]
    · have hbx : (a == x) = false := by simp [hx]
      simp only [hbx, Bool.false_eq_true, if_false, Nat.add_zero]
      exact ih (List.nodup_cons.mp h).2

theorem replaceFirst_currentRemoteName (env : GitEnv) :
    replaceFirst (currentRemoteName env) Constants.ORIGIN = env.branchLocal.current := by
  rw [currentRemoteName]
  by_cases hc : env.branchLocal.current ≠ ""
  · rw [if_pos hc]
    exact replaceFirst_origin_append env.branchLocal.current
  · rw [if_neg hc]
    rw [not_not] at hc
    rw [hc]
    exact replaceFirst_empty_origin

/-- C9: at most one produced record is flagged current; a remote record is
current only when its name is origin/ followed by the checked-out branch name
(whenever one is checked out), and an orphan local record only when its name is
the checked-out branch name. -/
theorem c9_at_most_one_current (env : GitEnv) (E : List String)
    (h1 : (env.remoteBranches.map Prod.fst).Nodup) (h2 : env.branchLocal.all.Nodup) :
    ((getBranchSummaryResult env E).1.countP (fun r => r.isCurrent) ≤ 1)
    ∧ (env.branchLocal.current ≠ "" → ∀ r ∈ (getBranchSummaryRemoteBranches env E).1,
        r.isCurrent = true → r.branch = "origin/" ++ env.branchLocal.current)
    ∧ (∀ r ∈ (getBranchSummaryLocalBranches env E).1,
        r.isCurrent = true → r.branch = env.branchLocal.current) := by
  have hremote_count : (getBranchSummaryRemoteBranches env E).1.countP (fun r => r.isCurrent)
      = (env.remoteBranches.map Prod.fst).countP (fun n => currentRemoteName env == n) := by
    rw [remote_records_eq, List.countP_map, List.countP_map]
    rfl
  have hlocal_count : (getBranchSummaryLocalBranches env E).1.countP (fun r => r.isCurrent)
      = (orphanLocalBranchNames env).countP (fun b => env.branchLocal.current == b) := by
    rw [local_records_eq, List.countP_map]
    rfl
  have hr1 : (env.remoteBranches.map Prod.fst).countP
      (fun n => currentRemoteName env == n) ≤ 1 := countP_beq_le_one _ _ h1
  have hl1 : (orphanLocalBranchNames env).countP
      (fun b => env.branchLocal.current == b) ≤ 1 :=
    countP_beq_le_one _ _ (List.Nodup.filter _ h2)
  have hdisj : 0 < (env.remoteBranches.map Prod.fst).countP
      (fun n => currentRemoteName env == n) →
      (orphanLocalBranchNames env).countP (fun b => env.branchLocal.current == b) = 0 := by
    intro hpos
    obtain ⟨n, hn, hbeq⟩ := List.countP_pos_iff.mp hpos
    rw [List.countP_eq_zero]
    intro b hb hcb
    rw [beq_iff_eq] at hcb hbeq
    subst hcb
    rw [orphanLocalBranchNames, List.mem_filter] at hb
    have hcontains := hb.2
    simp only [Bool.not_eq_true'] at hcontains
    have hmem : env.branchLocal.current ∈ remoteAsLocalBranchNames env := by
      rw [remoteAsLocalBranchNames]
      rw [List.mem_map] at hn ⊢
      obtain ⟨p, hp, hfst⟩ := hn
      refine ⟨p, hp, ?_⟩
      rw [hfst, ← hbeq]
      exact replaceFirst_currentRemoteName env
    simp [List.contains, List.elem_iff, hmem] at hcontains
  refine ⟨?_, ?_, ?_⟩
  · rw [result_records_eq, List.countP_append, hremote_count, hlocal_count]
    rcases Nat.eq_zero_or_pos ((env.remoteBranches.map Prod.fst).countP
        (fun n => currentRemoteName env == n)) with hz | hp
    · rw [hz]
      simpa using hl1
    · rw [hdisj hp]
      simpa using hr1
  · intro hcur r hr hflag
    rw [remote_records_eq, List.mem_map] at hr
    obtain ⟨b, hb, rfl⟩ := hr
    rw [classify_isCurrent] at hflag
    rw [classify_branch]
    rw [beq_iff_eq] at hflag
    rw [← hflag, if_pos hcur]
  · intro r hr hflag
    rw [local_records_eq, List.mem_map] at hr
    obtain ⟨b, hb, rfl⟩ := hr
    rw [orphan_isCurrent] at hflag
    rw [orphan_branch]
    rw [beq_iff_eq] at hflag
    exact hflag.symm

theorem c9_witness :
    (getBranchSummaryResult envW ["DEV"]).1.countP (fun r => r.isCurrent) ≤ 1 :=
  (c9_at_most_one_current envW ["DEV"] (by decide) (by decide)).1
